import Mathlib

/-!
# Verification of the checkpoint-ensembling pipeline (`ensemble.py`)

Shallow embedding of the ensemble aggregation pipeline of `ensemble.py`.
Model scores are embedded as exact rationals (`ℚ`); the neural-network
inference itself (model loading and the forward pass, lines 53-78) is
treated as an oracle `score : CheckpointEntry → List (List ℚ)` giving, for
each catalog entry, one score vector per evaluation sample.  Batched
iteration over the dataloader (`shuffle=False`, contiguous `start` offsets)
is result-equivalent to per-sample iteration and is embedded per sample.
Python `str` values are embedded as `String`, with the string operations
(`split`, `rsplit`, `endswith`, `int()` parsing) re-implemented structurally
over `List Char` so that they compute by kernel reduction.
-/

deriving instance DecidableEq for Except

namespace Ensemble

/-- Python exceptions that the embedded pipeline can raise. -/
inductive PyErr where
  | valueError (msg : String)
  | assertionError
  | indexError (msg : String)
  | unboundLocalError (msg : String)
deriving DecidableEq

/-- Split a character list at every occurrence of `c`, modelling Python
`str.split(c)` for a one-character separator: `""` splits to `[""]`,
separators at the ends produce empty fields. -/
def splitOnChar (c : Char) : List Char → List (List Char)
  | [] => [[]]
  | x :: xs =>
    let r := splitOnChar c xs
    if x = c then [] :: r
    else
      match r with
      | [] => [[x]]
      | h :: t => (x :: h) :: t

/-- Python `s.split(c)` (one-character separator) on `String`s. -/
def pySplit (s : String) (c : Char) : List String :=
  (splitOnChar c s.toList).map String.mk

/-- Join character lists with the separator `c` (inverse of `splitOnChar`). -/
def charIntercalate (c : Char) : List (List Char) → List Char
  | [] => []
  | [x] => x
  | x :: y :: t => x ++ c :: charIntercalate c (y :: t)

/-- Model of `cp_file.rsplit('.', 2)[0]` (line 38): drop up to two trailing
dot-separated components, keeping everything before them. -/
def stripTwoExts (s : String) : String :=
  let comps := splitOnChar '.' s.toList
  String.mk (charIntercalate '.' (comps.take (comps.length - min 2 (comps.length - 1))))

/-- Model of Python `s.endswith(suffix)` (line 35). -/
def pyEndsWith (s suffix : String) : Bool :=
  suffix.toList.isSuffixOf s.toList

/-- Strip leading and trailing whitespace, as `int()` does before parsing. -/
def pyStrip (l : List Char) : List Char :=
  ((l.dropWhile Char.isWhitespace).reverse.dropWhile Char.isWhitespace).reverse

/-- Numeric value of a list of decimal digit characters. -/
def digitsToNat (l : List Char) : Nat :=
  l.foldl (fun a c => a * 10 + (c.toNat - 48)) 0

/-- Decimal digit character for `d < 10`. -/
def digitChar10 (d : Nat) : Char :=
  match d with
  | 0 => '0' | 1 => '1' | 2 => '2' | 3 => '3' | 4 => '4'
  | 5 => '5' | 6 => '6' | 7 => '7' | 8 => '8' | _ => '9'

/-- Decimal digits of `n`, accumulator-based with explicit fuel so that it
computes by structural recursion. -/
def natToCharsAux : Nat → Nat → List Char → List Char
  | 0, _, acc => acc
  | fuel + 1, n, acc =>
    if n < 10 then digitChar10 n :: acc
    else natToCharsAux fuel (n / 10) (digitChar10 (n % 10) :: acc)

/-- Decimal string for a natural number (used in embedded error messages). -/
def natToStr (n : Nat) : String :=
  String.mk (natToCharsAux (n + 1) n [])

/-- Model of Python `int(s)` (line 40): strips surrounding whitespace,
allows an optional sign, then requires a nonempty run of decimal digits.
On failure it raises `ValueError` with Python's message, which names only
the offending literal.  (Python additionally accepts underscores between
digits, which never occur in the checkpoint-name convention.) -/
def pyInt (s : String) : Except PyErr Int :=
  let t := pyStrip s.toList
  let sd : Int × List Char :=
    match t with
    | '-' :: rest => (-1, rest)
    | '+' :: rest => (1, rest)
    | _ => (1, t)
  if !sd.2.isEmpty && sd.2.all Char.isDigit then
    .ok (sd.1 * (digitsToNat sd.2 : Int))
  else
    .error (.valueError ("invalid literal for int() with base 10: \x27" ++ s ++ "\x27"))

/-- One parsed checkpoint artifact: the tuple
`(model_group_name, model_name, model_acc, cp_path)` built on line 42. -/
structure CheckpointEntry where
  group : String
  name : String
  acc : Int
  path : String
deriving DecidableEq

/-- Lines 38-42: strip the two extension parts, split the base name on `-`,
require at least three fields (`model_group_name, model_name, acc_text, *_`),
parse the third as an integer.  Too few fields raises Python's unpacking
`ValueError`; a bad integer raises `int()`'s `ValueError`.  Neither message
contains the file name. -/
def parseEntry (modelDir cpFile : String) : Except PyErr CheckpointEntry :=
  match pySplit (stripTwoExts cpFile) '-' with
  | g :: n :: a :: _ =>
    match pyInt a with
    | .ok acc => .ok ⟨g, n, acc, modelDir ++ "/" ++ cpFile⟩
    | .error e => .error e
  | parts =>
    .error (.valueError ("not enough values to unpack (expected at least 3, got "
      ++ natToStr parts.length ++ ")"))

/-- The loop of lines 37-42: parse every matching file name in listing
order, stopping at the first failure. -/
def buildCatalog (modelDir : String) : List String → Except PyErr (List CheckpointEntry)
  | [] => .ok []
  | f :: fs =>
    match parseEntry modelDir f with
    | .error e => .error e
    | .ok entry =>
      match buildCatalog modelDir fs with
      | .error e => .error e
      | .ok rest => .ok (entry :: rest)

/-- Lexicographic comparison of character lists by code point, as Python
compares `str` values. -/
def charListLe : List Char → List Char → Bool
  | [], _ => true
  | _ :: _, [] => false
  | a :: as, b :: bs =>
    if a.toNat < b.toNat then true
    else if b.toNat < a.toNat then false
    else charListLe as bs

/-- Python string comparison `a <= b` (code-point lexicographic order). -/
def pyStrLe (a b : String) : Bool :=
  charListLe a.toList b.toList

/-- Stable insertion of an entry before the first strictly greater group
name (equal groups keep the existing element first). -/
def insertByGroup (e : CheckpointEntry) : List CheckpointEntry → List CheckpointEntry
  | [] => [e]
  | x :: xs => if pyStrLe e.group x.group then e :: x :: xs else x :: insertByGroup e xs

/-- Line 44, `sorted(model_info, key=itemgetter(0))`: stable sort by
`model_group_name`; ties keep original directory-listing order. -/
def sortCatalog : List CheckpointEntry → List CheckpointEntry
  | [] => []
  | x :: xs => insertByGroup x (sortCatalog xs)

/-- Elementwise sum of two score vectors. -/
def vecAdd (a b : List ℚ) : List ℚ :=
  List.zipWith (· + ·) a b

/-- Line 80, `conf_buff[start:start+bs] += score`: rowwise elementwise sum
of the accumulator with a model's score matrix. -/
def matAdd (a b : List (List ℚ)) : List (List ℚ) :=
  List.zipWith vecAdd a b

/-- Recursive core of the argmax: returns `(index, value)` of the first
maximal element, or `none` on the empty list. -/
def argmaxAux : List ℚ → Option (Nat × ℚ)
  | [] => none
  | x :: xs =>
    match argmaxAux xs with
    | none => some (0, x)
    | some (j, y) => if x < y then some (j + 1, y) else some (0, x)

/-- Model of `torch.max(·, dim=1)`'s index output on one row (lines 81 and
89): the index of the first maximal element. -/
def argmaxIdx (l : List ℚ) : Nat :=
  match argmaxAux l with
  | none => 0
  | some p => p.1

/-- `itoa[argmax(row)]`: the answer string a score vector votes for. -/
def topAns (itoa : List String) (row : List ℚ) : String :=
  itoa.getD (argmaxIdx row) ""

/-- One sample's vote tally: the Python dict `vote_buff[i]`, as an
association list in key-insertion order. -/
abbrev VoteTally := List (String × Int)

/-- Lines 84-85, `vote_buff[i][ans] = model_acc + vote_buff[i].get(ans, 0)`:
increment an existing key in place (keeping its position) or append a new
key at the end, as a Python dict does. -/
def tallyAdd (t : VoteTally) (ans : String) (w : Int) : VoteTally :=
  if t.any (fun p => p.1 = ans) then
    t.map (fun p => if p.1 = ans then (p.1, p.2 + w) else p)
  else
    t ++ [(ans, w)]

/-- `Counter(v).most_common(1)` head (line 94): the first entry attaining
the maximal count.  `sorted(..., reverse=True)` and `heapq.nlargest` are
stable, so on equal counts the earliest-inserted key wins. -/
def mostCommon1 : VoteTally → Option (String × Int)
  | [] => none
  | p :: rest =>
    match mostCommon1 rest with
    | none => some p
    | some q => if p.2 < q.2 then some q else some p

/-- Lines 82-85 for one sample: vote for the row's top answer with weight
`model_acc`. -/
def voteStep (itoa : List String) (w : Int) (row : List ℚ) (t : VoteTally) : VoteTally :=
  tallyAdd t (topAns itoa row) w

/-- Lines 82-85 over the whole evaluation set for one catalog entry. -/
def accumVotesEntry (itoa : List String) (w : Int) (rows : List (List ℚ))
    (votes : List VoteTally) : List VoteTally :=
  List.zipWith (voteStep itoa w) rows votes

/-- The vote side of the main loop (lines 53-87) over a list of catalog
entries, processed in order. -/
def accumVotes (itoa : List String) (score : CheckpointEntry → List (List ℚ))
    (entries : List CheckpointEntry) (votes₀ : List VoteTally) : List VoteTally :=
  entries.foldl (fun vs e => accumVotesEntry itoa e.acc (score e) vs) votes₀

/-- The confidence side of the main loop (line 80) over a list of catalog
entries: running elementwise sum of all score matrices.  In the source the
two buffers are updated independently in the same loop. -/
def accumConf (score : CheckpointEntry → List (List ℚ))
    (entries : List CheckpointEntry) (conf₀ : List (List ℚ)) : List (List ℚ) :=
  entries.foldl (fun c e => matAdd c (score e)) conf₀

/-- Lines 89-92: final per-sample answers from the confidence accumulator. -/
def confAnswers (itoa : List String) (conf : List (List ℚ)) : List String :=
  conf.map (topAns itoa)

/-- Line 94, `[Counter(v).most_common(1)[0][0] for v in vote_buff]`: an
empty tally makes `most_common(1)[0]` raise `IndexError`. -/
def voteAnswers : List VoteTally → Except PyErr (List String)
  | [] => .ok []
  | t :: ts =>
    match mostCommon1 t with
    | none => .error (.indexError "list index out of range")
    | some p =>
      match voteAnswers ts with
      | .error e => .error e
      | .ok rest => .ok (p.1 :: rest)

/-- The two result lists: `result-conf.json` and `result-vote.json`
contents, each a list of `(question_id, answer)` objects. -/
structure EnsembleOutput where
  conf : List (Int × String)
  vote : List (Int × String)
deriving DecidableEq

/-- Lines 47-97 after the catalog is fixed: initialize `vote_buff` (one
empty dict per sample) and `conf_buff` (a zero matrix), run the main loop,
and zip `que_ids` with both answer lists. -/
def finishRun (score : CheckpointEntry → List (List ℚ)) (queIds : List Int)
    (itoa : List String) (catalog : List CheckpointEntry) : Except PyErr EnsembleOutput :=
  match voteAnswers (accumVotes itoa score catalog (List.replicate queIds.length [])) with
  | .error e => .error e
  | .ok va =>
    .ok ⟨queIds.zip (confAnswers itoa (accumConf score catalog
          (List.replicate queIds.length (List.replicate itoa.length 0)))),
        queIds.zip va⟩

/-- Lines 34-102 of `main`, after argument parsing: filter the directory
listing for `.pth.tar` files, build and sort the catalog, assert at least
two entries (line 45), then run the loop and produce both outputs. -/
def runPipeline (score : CheckpointEntry → List (List ℚ)) (queIds : List Int)
    (itoa : List String) (modelDir : String) (files : List String) :
    Except PyErr EnsembleOutput :=
  match buildCatalog modelDir (files.filter (fun f => pyEndsWith f ".pth.tar")) with
  | .error e => .error e
  | .ok infos =>
    if (sortCatalog infos).length > 1 then finishRun score queIds itoa (sortCatalog infos)
    else .error .assertionError

/-- Sum of the weights stored in a tally. -/
def tallySum (t : VoteTally) : Int :=
  (t.map Prod.snd).sum

/-- Sum of the accuracies of a list of catalog entries. -/
def accSum (l : List CheckpointEntry) : Int :=
  (l.map CheckpointEntry.acc).sum

/-- Is `needle` a contiguous substring of the character list? -/
def isSubChars (needle : List Char) : List Char → Bool
  | [] => needle.isEmpty
  | c :: rest => needle.isPrefixOf (c :: rest) || isSubChars needle rest

/-- Does the string `s` contain `sub` as a contiguous substring? -/
def strContains (s sub : String) : Bool :=
  isSubChars sub.toList s.toList

/-- Did this computation raise an exception? -/
def exceptFailed : Except PyErr Int → Bool
  | .error _ => true
  | .ok _ => false

/-- The condition under which lines 38-40 fail for a checkpoint file name:
the base name has fewer than three dash-separated fields, or the third
field does not parse as an integer. -/
def badCheckpointName (cpFile : String) : Prop :=
  (pySplit (stripTwoExts cpFile) '-').length < 3 ∨
    exceptFailed (pyInt ((pySplit (stripTwoExts cpFile) '-').getD 2 "")) = true

/-- Filesystem effects of the output-writing code (lines 99-102):
`open(fname, 'w')` truncates/creates the file at its final name, then
`json.dump` writes the serialized content into it. -/
inductive FsOp where
  | openTrunc (path : String)
  | writeAll (path : String) (content : String)
deriving DecidableEq

/-- Lines 99-102: both result files are opened directly under their final
names in write mode and then written; there is no temporary name and no
rename step. -/
def writeOutputs (modelDir confJson voteJson : String) : List FsOp :=
  [ .openTrunc (modelDir ++ "/result-conf.json"),
    .writeAll (modelDir ++ "/result-conf.json") confJson,
    .openTrunc (modelDir ++ "/result-vote.json"),
    .writeAll (modelDir ++ "/result-vote.json") voteJson ]

/-- A flat filesystem: association list from path to content. -/
abbrev FileSys := List (String × String)

/-- Create or overwrite the file at `p` with content `c`. -/
def fsSet : FileSys → String → String → FileSys
  | [], p, c => [(p, c)]
  | q :: rest, p, c => if q.1 = p then (p, c) :: rest else q :: fsSet rest p c

/-- Content of the file at `p`, if present. -/
def fsGet (fs : FileSys) (p : String) : Option String :=
  (fs.find? (fun q => q.1 = p)).map Prod.snd

/-- Effect of a single filesystem operation. -/
def applyOp (fs : FileSys) : FsOp → FileSys
  | .openTrunc p => fsSet fs p ""
  | .writeAll p c => fsSet fs p c

/-- Run a sequence of filesystem operations; a crash after `k` of them is
modelled as `runOps fs (ops.take k)`. -/
def runOps (fs : FileSys) (ops : List FsOp) : FileSys :=
  ops.foldl applyOp fs

/-- Statements of `main` relevant to local-variable scoping: reads and
assignments of Python locals, and the external effects. -/
inductive PyStmt where
  | readLocal (x : String)
  | assignLocal (x : String)
  | effect (x : String)
deriving DecidableEq

/-- The statement order of `main` (lines 28-102).  Because `args` is
assigned on line 33, Python treats `args` as a local of `main` throughout
the function body, so the reads on lines 28 and 30 refer to the
not-yet-assigned local. -/
def mainStmts : List PyStmt :=
  [ .readLocal "args",                     -- line 28: args.cfg_file
    .readLocal "args",                     -- line 30: args.set_cfgs
    .assignLocal "args",                   -- line 33: args = parser.parse_args()
    .readLocal "args",                     -- line 34: args.model_dir
    .effect "os.listdir",                  -- line 34
    .effect "inference",                   -- lines 47-87
    .effect "write result-conf.json",      -- line 100
    .effect "write result-vote.json" ]     -- line 102

/-- Execute statements with Python local-variable semantics: reading a
local that has not been assigned raises `UnboundLocalError`; the returned
list logs the external effects actually performed before any error. -/
def runStmts : List PyStmt → List String → List String → Except PyErr Unit × List String
  | [], _, log => (.ok (), log)
  | .readLocal x :: rest, env, log =>
    if env.contains x then runStmts rest env log
    else (.error (.unboundLocalError
      ("local variable \x27" ++ x ++ "\x27 referenced before assignment")), log)
  | .assignLocal x :: rest, env, log => runStmts rest (x :: env) log
  | .effect s :: rest, env, log => runStmts rest env (log ++ [s])

/-! ## Properties of the argmax and of the most-common selection -/

lemma argmaxAux_eq_none {l : List ℚ} (h : argmaxAux l = none) : l = [] := by
  cases l with
  | nil => rfl
  | cons x xs =>
    have h2 : (match argmaxAux xs with
        | none => some (0, x)
        | some (j, y) => if x < y then some (j + 1, y) else some (0, x)) = none := h
    cases hx : argmaxAux xs with
    | none =>
      rw [hx] at h2
      exact Option.noConfusion h2
    | some p =>
      rw [hx] at h2
      have h3 : (if x < p.2 then some (p.1 + 1, p.2) else some (0, x)) = none := h2
      by_cases hc : x < p.2
      · rw [if_pos hc] at h3; exact Option.noConfusion h3
      · rw [if_neg hc] at h3; exact Option.noConfusion h3

lemma argmaxAux_spec {l : List ℚ} {i : Nat} {y : ℚ} (h : argmaxAux l = some (i, y)) :
    i < l.length ∧ l.getD i 0 = y ∧ (∀ j < l.length, l.getD j 0 ≤ y) ∧
      (∀ j < i, l.getD j 0 < y) := by
  induction l generalizing i y with
  | nil => simp [argmaxAux] at h
  | cons x xs ih =>
    have h2 : (match argmaxAux xs with
        | none => some (0, x)
        | some (j, y) => if x < y then some (j + 1, y) else some (0, x)) = some (i, y) := h
    cases hx : argmaxAux xs with
    | none =>
      have hnil : xs = [] := argmaxAux_eq_none hx
      rw [hx] at h2
      have h3 : ((0 : Nat), x) = (i, y) := by injection h2
      simp only [Prod.mk.injEq] at h3
      obtain ⟨rfl, rfl⟩ := h3
      subst hnil
      refine ⟨by simp, by simp, ?_, by simp⟩
      intro j hj
      simp only [List.length_cons, List.length_nil] at hj
      have hj0 : j = 0 := by omega
      subst hj0
      simp
    | some p =>
      obtain ⟨j₀, y₀⟩ := p
      rw [hx] at h2
      have h3 : (if x < y₀ then some (j₀ + 1, y₀) else some (0, x)) = some (i, y) := h2
      obtain ⟨hj₀, hval, hub, hlt⟩ := ih hx
      by_cases hxy : x < y₀
      · rw [if_pos hxy] at h3
        have h4 : (j₀ + 1, y₀) = (i, y) := by injection h3
        simp only [Prod.mk.injEq] at h4
        obtain ⟨rfl, rfl⟩ := h4
        refine ⟨by simpa using Nat.succ_lt_succ hj₀, by simpa using hval, ?_, ?_⟩
        · intro j hj
          cases j with
          | zero => exact le_of_lt hxy
          | succ k => exact hub k (by simpa using hj)
        · intro j hj
          cases j with
          | zero => simpa using hxy
          | succ k => exact hlt k (by omega)
      · rw [if_neg hxy] at h3
        have h4 : ((0 : Nat), x) = (i, y) := by injection h3
        simp only [Prod.mk.injEq] at h4
        obtain ⟨rfl, rfl⟩ := h4
        refine ⟨by simp, by simp, ?_, by simp⟩
        intro j hj
        cases j with
        | zero => simp
        | succ k =>
          simpa using le_trans (hub k (by simpa using hj)) (not_lt.mp hxy)

lemma mostCommon1_eq_none {t : VoteTally} (h : mostCommon1 t = none) : t = [] := by
  cases t with
  | nil => rfl
  | cons q rest =>
    have h2 : (match mostCommon1 rest with
        | none => some q
        | some r => if q.2 < r.2 then some r else some q) = none := h
    cases hx : mostCommon1 rest with
    | none =>
      rw [hx] at h2
      exact Option.noConfusion h2
    | some r =>
      rw [hx] at h2
      have h3 : (if q.2 < r.2 then some r else some q) = none := h2
      by_cases hc : q.2 < r.2
      · rw [if_pos hc] at h3; exact Option.noConfusion h3
      · rw [if_neg hc] at h3; exact Option.noConfusion h3

lemma mostCommon1_spec {t : VoteTally} {p : String × Int} (h : mostCommon1 t = some p) :
    ∃ i, i < t.length ∧ t.getD i ("", 0) = p ∧
      (∀ j < t.length, (t.getD j ("", 0)).2 ≤ p.2) ∧
      (∀ j < i, (t.getD j ("", 0)).2 < p.2) := by
  induction t generalizing p with
  | nil => simp [mostCommon1] at h
  | cons q rest ih =>
    have h2 : (match mostCommon1 rest with
        | none => some q
        | some r => if q.2 < r.2 then some r else some q) = some p := h
    cases hx : mostCommon1 rest with
    | none =>
      have hnil : rest = [] := mostCommon1_eq_none hx
      rw [hx] at h2
      have h3 : q = p := by injection h2
      subst hnil h3
      refine ⟨0, by simp, by simp, ?_, by simp⟩
      intro j hj
      simp only [List.length_cons, List.length_nil] at hj
      have hj0 : j = 0 := by omega
      subst hj0
      simp
    | some r =>
      rw [hx] at h2
      have h3 : (if q.2 < r.2 then some r else some q) = some p := h2
      obtain ⟨i₀, hi₀, hval, hub, hlt⟩ := ih hx
      by_cases hqr : q.2 < r.2
      · rw [if_pos hqr] at h3
        have h4 : r = p := by injection h3
        subst h4
        refine ⟨i₀ + 1, by simpa using Nat.succ_lt_succ hi₀, by simpa using hval, ?_, ?_⟩
        · intro j hj
          cases j with
          | zero => exact le_of_lt hqr
          | succ k => exact hub k (by simpa using hj)
        · intro j hj
          cases j with
          | zero => simpa using hqr
          | succ k => exact hlt k (by omega)
      · rw [if_neg hqr] at h3
        have h4 : q = p := by injection h3
        subst h4
        refine ⟨0, by simp, by simp, ?_, by simp⟩
        intro j hj
        cases j with
        | zero => simp
        | succ k =>
          simpa using le_trans (hub k (by simpa using hj)) (not_lt.mp hqr)

/-- C6: every argmax taken over a score vector — the per-sample top answer
used for voting (line 81) and the final argmax over the accumulated
confidence sums (line 89) both go through `argmaxIdx` — breaks exact score
ties by choosing the lowest vocabulary index: the chosen index attains the
maximum and every strictly smaller index holds a strictly smaller score. -/
theorem argmax_lowest_index_tiebreak (l : List ℚ) (h : l ≠ []) :
    argmaxIdx l < l.length ∧
    (∀ j < l.length, l.getD j 0 ≤ l.getD (argmaxIdx l) 0) ∧
    (∀ j < argmaxIdx l, l.getD j 0 < l.getD (argmaxIdx l) 0) := by
  cases hx : argmaxAux l with
  | none => exact absurd (argmaxAux_eq_none hx) h
  | some p =>
    obtain ⟨i, y⟩ := p
    obtain ⟨hi, hval, hub, hlt⟩ := argmaxAux_spec hx
    have hidx : argmaxIdx l = i := by simp [argmaxIdx, hx]
    rw [hidx, hval]
    exact ⟨hi, hub, hlt⟩

theorem argmax_lowest_index_tiebreak_witness :
    argmaxIdx [(2 : ℚ), 5, 5] < [(2 : ℚ), 5, 5].length ∧
    (∀ j < [(2 : ℚ), 5, 5].length,
      [(2 : ℚ), 5, 5].getD j 0 ≤ [(2 : ℚ), 5, 5].getD (argmaxIdx [(2 : ℚ), 5, 5]) 0) ∧
    (∀ j < argmaxIdx [(2 : ℚ), 5, 5],
      [(2 : ℚ), 5, 5].getD j 0 < [(2 : ℚ), 5, 5].getD (argmaxIdx [(2 : ℚ), 5, 5]) 0) :=
  argmax_lowest_index_tiebreak [2, 5, 5] (by simp)

lemma voteStep_nil (itoa : List String) (w : Int) (r : List ℚ) :
    voteStep itoa w r [] = [(topAns itoa r, w)] := by
  simp [voteStep, tallyAdd]

lemma zipWith_voteStep_replicate (itoa : List String) (w : Int) :
    ∀ rows : List (List ℚ),
      List.zipWith (voteStep itoa w) rows (List.replicate rows.length []) =
        rows.map (fun r => [(topAns itoa r, w)])
  | [] => by simp
  | r :: rs => by
    simp only [List.length_cons, List.replicate_succ, List.zipWith_cons_cons,
      List.map_cons, voteStep_nil]
    rw [zipWith_voteStep_replicate itoa w rs]

lemma two_model_core (itoa : List String) (w : Int) :
    ∀ rows₁ rows₂ : List (List ℚ), rows₁.length = rows₂.length →
      (∀ i < rows₁.length, topAns itoa (rows₁.getD i []) ≠ topAns itoa (rows₂.getD i [])) →
      voteAnswers (List.zipWith (voteStep itoa w) rows₂
          (rows₁.map (fun r => [(topAns itoa r, w)]))) =
        .ok (rows₁.map (topAns itoa))
  | [], rows₂, hlen, _ => by
    have : rows₂ = [] := by
      cases rows₂ with
      | nil => rfl
      | cons _ _ => simp at hlen
    subst this
    simp [voteAnswers]
  | r₁ :: rs₁, rows₂, hlen, hdis => by
    cases rows₂ with
    | nil => simp at hlen
    | cons r₂ rs₂ =>
      have hne : topAns itoa r₁ ≠ topAns itoa r₂ := by
        have := hdis 0 (by simp)
        simpa using this
      have hstep : voteStep itoa w r₂ [(topAns itoa r₁, w)] =
          [(topAns itoa r₁, w), (topAns itoa r₂, w)] := by
        simp [voteStep, tallyAdd, hne, Ne.symm hne]
      have hmc : mostCommon1 [(topAns itoa r₁, w), (topAns itoa r₂, w)] =
          some (topAns itoa r₁, w) := by
        simp [mostCommon1]
      have htail := two_model_core itoa w rs₁ rs₂ (by simpa using hlen)
        (fun i hi => by simpa using hdis (i + 1) (by simpa using Nat.succ_lt_succ hi))
      simp only [List.map_cons, List.zipWith_cons_cons, hstep, voteAnswers, hmc, htail]

/-- C1: when several answers share the maximal accumulated weight in a
sample's vote tally, the finalized vote answer is the one inserted into
the tally first — `mostCommon1` returns an entry attaining the maximum
such that every earlier entry has strictly smaller weight; in particular,
for a catalog of exactly two entries with equal accuracy that disagree on
every sample's top answer, every sample's vote answer is the
first-processed entry's answer. -/
theorem vote_tie_first_inserted :
    (∀ t : VoteTally, t ≠ [] →
      ∃ i, i < t.length ∧ mostCommon1 t = some (t.getD i ("", 0)) ∧
        (∀ j < t.length, (t.getD j ("", 0)).2 ≤ (t.getD i ("", 0)).2) ∧
        (∀ j < i, (t.getD j ("", 0)).2 < (t.getD i ("", 0)).2)) ∧
    (∀ (e₁ e₂ : CheckpointEntry) (score : CheckpointEntry → List (List ℚ))
        (itoa : List String) (n : Nat),
      e₁.acc = e₂.acc →
      (score e₁).length = n → (score e₂).length = n →
      (∀ i < n, topAns itoa ((score e₁).getD i []) ≠ topAns itoa ((score e₂).getD i [])) →
      voteAnswers (accumVotes itoa score [e₁, e₂] (List.replicate n [])) =
        .ok ((score e₁).map (topAns itoa))) := by
  constructor
  · intro t ht
    cases hx : mostCommon1 t with
    | none => exact absurd (mostCommon1_eq_none hx) ht
    | some p =>
      obtain ⟨i, hi, hval, hub, hlt⟩ := mostCommon1_spec hx
      exact ⟨i, hi, congrArg some hval.symm, by rw [hval]; exact hub, by rw [hval]; exact hlt⟩
  · intro e₁ e₂ score itoa n hacc h₁ h₂ hdis
    have hfold : accumVotes itoa score [e₁, e₂] (List.replicate n []) =
        accumVotesEntry itoa e₂.acc (score e₂)
          (accumVotesEntry itoa e₁.acc (score e₁) (List.replicate n [])) := by
      simp [accumVotes]
    rw [hfold, ← hacc]
    have hrep : (List.replicate n ([] : VoteTally)) =
        List.replicate (score e₁).length [] := by rw [h₁]
    rw [hrep]
    unfold accumVotesEntry
    rw [zipWith_voteStep_replicate]
    exact two_model_core itoa e₁.acc (score e₁) (score e₂) (h₁.trans h₂.symm)
      (fun i hi => hdis i (h₁ ▸ hi))

theorem vote_tie_first_inserted_witness :
    (∃ i, i < ([("x", 2), ("y", 2)] : VoteTally).length ∧
      mostCommon1 [("x", 2), ("y", 2)] =
        some (([("x", 2), ("y", 2)] : VoteTally).getD i ("", 0)) ∧
      (∀ j < ([("x", 2), ("y", 2)] : VoteTally).length,
        (([("x", 2), ("y", 2)] : VoteTally).getD j ("", 0)).2 ≤
          (([("x", 2), ("y", 2)] : VoteTally).getD i ("", 0)).2) ∧
      (∀ j < i, (([("x", 2), ("y", 2)] : VoteTally).getD j ("", 0)).2 <
          (([("x", 2), ("y", 2)] : VoteTally).getD i ("", 0)).2)) ∧
    voteAnswers (accumVotes ["a", "b"]
        (fun e => if e.name = "M1" then [[(1 : ℚ), 0]] else [[(0 : ℚ), 1]])
        [⟨"g", "M1", 7, "p1"⟩, ⟨"g", "M2", 7, "p2"⟩] (List.replicate 1 [])) =
      .ok (((fun e : CheckpointEntry =>
          if e.name = "M1" then [[(1 : ℚ), 0]] else [[(0 : ℚ), 1]])
            ⟨"g", "M1", 7, "p1"⟩).map (topAns ["a", "b"])) :=
  ⟨vote_tie_first_inserted.1 [("x", 2), ("y", 2)] (by simp),
   vote_tie_first_inserted.2 ⟨"g", "M1", 7, "p1"⟩ ⟨"g", "M2", 7, "p2"⟩ _ ["a", "b"] 1
     rfl (by decide) (by decide) (by decide)⟩

/-- The fixed evaluation scenario of the spec: model A answers with scores
`[0.1, 0.7, 0.2]`, model B with `[0.6, 0.3, 0.1]` on the single sample. -/
def scoreC2 : CheckpointEntry → List (List ℚ) :=
  fun e => if e.name = "A" then [[0.1, 0.7, 0.2]] else [[0.6, 0.3, 0.1]]

/-- Catalog entry parsed from `a-A-80.pth.tar` (model A, accuracy 80). -/
def entryA : CheckpointEntry := ⟨"a", "A", 80, "m/a-A-80.pth.tar"⟩

/-- Catalog entry parsed from `b-B-60.pth.tar` (model B, accuracy 60). -/
def entryB : CheckpointEntry := ⟨"b", "B", 60, "m/b-B-60.pth.tar"⟩

/-- C2: on vocabulary `["yes","no","two"]` with one sample, model A
(accuracy 80, scores `[0.1,0.7,0.2]`) and model B (accuracy 60, scores
`[0.6,0.3,0.1]`) produce confidence sum `[0.7,1.0,0.3]`, vote tally
`{"no": 80, "yes": 60}`, and both the confidence answer and the vote
answer are `"no"`. -/
theorem concrete_scenario_result :
    accumConf scoreC2 [entryA, entryB] [[0, 0, 0]] = [[0.7, 1.0, 0.3]] ∧
    accumVotes ["yes", "no", "two"] scoreC2 [entryA, entryB] (List.replicate 1 []) =
      [[("no", 80), ("yes", 60)]] ∧
    runPipeline scoreC2 [1] ["yes", "no", "two"] "m" ["a-A-80.pth.tar", "b-B-60.pth.tar"] =
      .ok ⟨[(1, "no")], [(1, "no")]⟩ := by
  refine ⟨?_, ?_, ?_⟩
  · simp +decide [accumConf, matAdd, vecAdd, scoreC2, entryA, entryB]
    norm_num
  · simp +decide [accumVotes, accumVotesEntry, voteStep, topAns, argmaxIdx, argmaxAux,
      tallyAdd, scoreC2, entryA, entryB]
    norm_num
    decide
  · have hcat : buildCatalog "m" (List.filter (fun f => pyEndsWith f ".pth.tar")
        ["a-A-80.pth.tar", "b-B-60.pth.tar"]) = .ok [entryA, entryB] := by decide
    have hsort : sortCatalog [entryA, entryB] = [entryA, entryB] := by decide
    simp only [runPipeline, hcat, hsort]
    simp +decide [finishRun, accumConf, accumVotes, accumVotesEntry, voteStep, topAns,
      argmaxIdx, argmaxAux, tallyAdd, matAdd, vecAdd, confAnswers, voteAnswers,
      mostCommon1, scoreC2, entryA, entryB]
    norm_num
    simp +decide [mostCommon1]

/-- C10: in `main`, the local variable `args` is read on line 28 (and 30)
before its assignment on line 33, so every invocation raises
`UnboundLocalError` before the model directory is listed, before any
inference runs, and before any output file is touched: the effect log is
empty. -/
theorem main_reads_args_before_assignment :
    runStmts mainStmts [] [] =
      (.error (.unboundLocalError "local variable \x27args\x27 referenced before assignment"),
       []) := by
  decide

lemma vecAdd_right_comm : ∀ c a b : List ℚ, vecAdd (vecAdd c a) b = vecAdd (vecAdd c b) a
  | [], _, _ => by simp [vecAdd]
  | _ :: _, [], [] => by simp [vecAdd]
  | _ :: _, [], _ :: _ => by simp [vecAdd]
  | _ :: _, _ :: _, [] => by simp [vecAdd]
  | x :: cs, y :: as, z :: bs => by
    simp only [vecAdd, List.zipWith_cons_cons]
    refine congrArg₂ _ (by ring) ?_
    exact vecAdd_right_comm cs as bs

lemma matAdd_right_comm : ∀ c a b : List (List ℚ), matAdd (matAdd c a) b = matAdd (matAdd c b) a
  | [], _, _ => by simp [matAdd]
  | _ :: _, [], [] => by simp [matAdd]
  | _ :: _, [], _ :: _ => by simp [matAdd]
  | _ :: _, _ :: _, [] => by simp [matAdd]
  | x :: cs, y :: as, z :: bs => by
    simp only [matAdd, List.zipWith_cons_cons]
    refine congrArg₂ _ (vecAdd_right_comm x y z) ?_
    exact matAdd_right_comm cs as bs

/-- C3: for any catalog with at least two entries, the accumulated
confidence sums — and hence the per-sample confidence answers — are
unchanged under any permutation of the catalog entries, for every fixed
evaluation set (`itoa`, initial accumulator) and scoring oracle. -/
theorem conf_sum_perm_invariant (entries₁ entries₂ : List CheckpointEntry)
    (score : CheckpointEntry → List (List ℚ)) (itoa : List String)
    (conf₀ : List (List ℚ)) (hp : entries₁.Perm entries₂) (hlen : 2 ≤ entries₁.length) :
    accumConf score entries₁ conf₀ = accumConf score entries₂ conf₀ ∧
    confAnswers itoa (accumConf score entries₁ conf₀) =
      confAnswers itoa (accumConf score entries₂ conf₀) := by
  have h : accumConf score entries₁ conf₀ = accumConf score entries₂ conf₀ := by
    unfold accumConf
    exact hp.foldl_eq' (fun x _ y _ z => matAdd_right_comm z (score x) (score y)) conf₀
  exact ⟨h, by rw [h]⟩

theorem conf_sum_perm_invariant_witness :
    accumConf (fun e => [[e.acc, 0]]) [⟨"a", "A", 3, "pa"⟩, ⟨"b", "B", 4, "pb"⟩] [[0, 0]] =
      accumConf (fun e => [[e.acc, 0]]) [⟨"b", "B", 4, "pb"⟩, ⟨"a", "A", 3, "pa"⟩] [[0, 0]] ∧
    confAnswers ["u", "v"]
        (accumConf (fun e => [[e.acc, 0]]) [⟨"a", "A", 3, "pa"⟩, ⟨"b", "B", 4, "pb"⟩] [[0, 0]]) =
      confAnswers ["u", "v"]
        (accumConf (fun e => [[e.acc, 0]]) [⟨"b", "B", 4, "pb"⟩, ⟨"a", "A", 3, "pa"⟩] [[0, 0]]) :=
  conf_sum_perm_invariant _ _ _ _ _ (List.Perm.swap _ _ _) (by simp)

lemma buildCatalog_ok_length (modelDir : String) :
    ∀ {fs : List String} {infos : List CheckpointEntry},
      buildCatalog modelDir fs = .ok infos → infos.length = fs.length := by
  intro fs
  induction fs with
  | nil => intro infos h; simp only [buildCatalog] at h; cases h; rfl
  | cons f fs ih =>
    intro infos h
    simp only [buildCatalog] at h
    cases hp : parseEntry modelDir f with
    | error e => rw [hp] at h; exact Except.noConfusion h
    | ok entry =>
      rw [hp] at h
      cases hb : buildCatalog modelDir fs with
      | error e => rw [hb] at h; exact Except.noConfusion h
      | ok rest =>
        rw [hb] at h
        have h2 : entry :: rest = infos := by injection h
        subst h2
        simp [ih hb]

lemma insertByGroup_length (e : CheckpointEntry) :
    ∀ l : List CheckpointEntry, (insertByGroup e l).length = l.length + 1
  | [] => rfl
  | x :: xs => by
    simp only [insertByGroup]
    by_cases hc : pyStrLe e.group x.group
    · simp [hc]
    · simp [hc, insertByGroup_length e xs]

lemma sortCatalog_length : ∀ l : List CheckpointEntry, (sortCatalog l).length = l.length
  | [] => rfl
  | x :: xs => by
    simp only [sortCatalog]
    rw [insertByGroup_length, sortCatalog_length xs]
    simp

lemma badCheckpointName_parseEntry_error {cpFile : String} (modelDir : String)
    (hbad : badCheckpointName cpFile) : ∃ e, parseEntry modelDir cpFile = .error e := by
  cases hps : pySplit (stripTwoExts cpFile) '-' with
  | nil => exact ⟨_, by simp only [parseEntry, hps]; rfl⟩
  | cons g rest1 =>
    cases rest1 with
    | nil => exact ⟨_, by simp only [parseEntry, hps]; rfl⟩
    | cons n rest2 =>
      cases rest2 with
      | nil => exact ⟨_, by simp only [parseEntry, hps]; rfl⟩
      | cons a rest3 =>
        rcases hbad with hlen | hfail
        · rw [hps] at hlen
          simp only [List.length_cons] at hlen
          omega
        · rw [hps] at hfail
          have ha : ((g :: n :: a :: rest3).getD 2 "") = a := rfl
          rw [ha] at hfail
          cases hi : pyInt a with
          | error e => exact ⟨e, by simp only [parseEntry, hps, hi]⟩
          | ok v =>
            rw [hi] at hfail
            simp [exceptFailed] at hfail

lemma buildCatalog_error_of_mem (modelDir : String) {cpFile : String} :
    ∀ {fs : List String}, cpFile ∈ fs → (∃ e, parseEntry modelDir cpFile = .error e) →
      ∃ e, buildCatalog modelDir fs = .error e := by
  intro fs
  induction fs with
  | nil => intro h; exact absurd h (List.not_mem_nil _)
  | cons f fs ih =>
    intro hmem hfail
    cases hp : parseEntry modelDir f with
    | error e => exact ⟨e, by simp [buildCatalog, hp]⟩
    | ok entry =>
      have hne : cpFile ≠ f := by
        intro he
        obtain ⟨e, hf⟩ := hfail
        rw [he, hp] at hf
        exact Except.noConfusion hf
      have hmem' : cpFile ∈ fs := by
        cases List.mem_cons.mp hmem with
        | inl h => exact absurd h hne
        | inr h => exact h
      obtain ⟨e, hb⟩ := ih hmem' hfail
      exact ⟨e, by simp [buildCatalog, hp, hb]⟩

/-- C4: if the model directory listing contains fewer than two file names
ending in `.pth.tar`, the pipeline aborts with a hard error (the
`assert len(model_info) > 1` on line 45, or a parse error before it): no
output is produced, and the result does not depend on the scoring oracle,
i.e. no inference is consulted. -/
theorem catalog_too_small_aborts (score : CheckpointEntry → List (List ℚ))
    (queIds : List Int) (itoa : List String) (modelDir : String) (files : List String)
    (h : (files.filter (fun f => pyEndsWith f ".pth.tar")).length < 2) :
    (∃ e, runPipeline score queIds itoa modelDir files = .error e) ∧
    (∀ score', runPipeline score' queIds itoa modelDir files =
      runPipeline score queIds itoa modelDir files) := by
  have key : ∀ sc : CheckpointEntry → List (List ℚ),
      runPipeline sc queIds itoa modelDir files =
        (match buildCatalog modelDir (files.filter (fun f => pyEndsWith f ".pth.tar")) with
          | .error e => .error e
          | .ok _ => .error .assertionError) := by
    intro sc
    unfold runPipeline
    cases hbc : buildCatalog modelDir (files.filter (fun f => pyEndsWith f ".pth.tar")) with
    | error e => simp only [hbc]
    | ok infos =>
      have hlen : (sortCatalog infos).length < 2 := by
        rw [sortCatalog_length, buildCatalog_ok_length modelDir hbc]
        exact h
      simp only [hbc]
      rw [if_neg (show ¬ ((sortCatalog infos).length > 1) by omega)]
  refine ⟨?_, fun score' => (key score').trans (key score).symm⟩
  rw [key score]
  cases hbc : buildCatalog modelDir (files.filter (fun f => pyEndsWith f ".pth.tar")) with
  | error e => exact ⟨e, rfl⟩
  | ok infos => exact ⟨.assertionError, rfl⟩

theorem catalog_too_small_aborts_witness :
    ((["a-A-80.pth.tar", "notes.txt"].filter (fun f => pyEndsWith f ".pth.tar")).length < 2) ∧
    ((∃ e, runPipeline (fun _ => [[(1 : ℚ)]]) [5] ["yes"] "m" ["a-A-80.pth.tar", "notes.txt"] =
        .error e) ∧
      (∀ score', runPipeline score' [5] ["yes"] "m" ["a-A-80.pth.tar", "notes.txt"] =
        runPipeline (fun _ => [[(1 : ℚ)]]) [5] ["yes"] "m" ["a-A-80.pth.tar", "notes.txt"])) :=
  ⟨by decide, catalog_too_small_aborts _ [5] ["yes"] "m" _ (by decide)⟩

/-- C5 counterexample: the file name `ab.pth.tar` has only one
dash-separated field, so catalog building raises the unpacking
`ValueError`; its message does not contain the offending file name, and
likewise the `int()` error for `a-A-8x.pth.tar` names only the accuracy
field, not the file. -/
theorem parse_error_message_lacks_filename :
    buildCatalog "models" ["ab.pth.tar"] =
      .error (.valueError "not enough values to unpack (expected at least 3, got 1)") ∧
    strContains "not enough values to unpack (expected at least 3, got 1)" "ab.pth.tar" = false ∧
    buildCatalog "models" ["a-A-8x.pth.tar"] =
      .error (.valueError "invalid literal for int() with base 10: \x278x\x27") ∧
    strContains "invalid literal for int() with base 10: \x278x\x27" "a-A-8x.pth.tar" = false := by
  decide

/-- C5 (amended): for every matching checkpoint file name whose base name
does not split on `-` into at least three fields, or whose third field
does not parse as an integer, the run aborts with a hard error before any
inference (the result does not depend on the scoring oracle) and no output
is produced; the error message, however, does not name the offending
file. -/
theorem parse_error_aborts (score : CheckpointEntry → List (List ℚ))
    (queIds : List Int) (itoa : List String) (modelDir : String) (files : List String)
    (cpFile : String) (hmem : cpFile ∈ files)
    (hmatch : pyEndsWith cpFile ".pth.tar" = true) (hbad : badCheckpointName cpFile) :
    (∃ e, runPipeline score queIds itoa modelDir files = .error e) ∧
    (∀ score', runPipeline score' queIds itoa modelDir files =
      runPipeline score queIds itoa modelDir files) := by
  have hmem' : cpFile ∈ files.filter (fun f => pyEndsWith f ".pth.tar") :=
    List.mem_filter.mpr ⟨hmem, hmatch⟩
  obtain ⟨e, hbc⟩ := buildCatalog_error_of_mem modelDir hmem'
    (badCheckpointName_parseEntry_error modelDir hbad)
  have key : ∀ sc : CheckpointEntry → List (List ℚ),
      runPipeline sc queIds itoa modelDir files = .error e := by
    intro sc
    unfold runPipeline
    rw [hbc]
  exact ⟨⟨e, key score⟩, fun score' => (key score').trans (key score).symm⟩

theorem parse_error_aborts_witness :
    ("ab.pth.tar" ∈ ["ab.pth.tar", "c-D-7.pth.tar"]) ∧
    (pyEndsWith "ab.pth.tar" ".pth.tar" = true) ∧
    badCheckpointName "ab.pth.tar" ∧
    ((∃ e, runPipeline (fun _ => [[(1 : ℚ)]]) [5] ["yes"] "m"
        ["ab.pth.tar", "c-D-7.pth.tar"] = .error e) ∧
      (∀ score', runPipeline score' [5] ["yes"] "m" ["ab.pth.tar", "c-D-7.pth.tar"] =
        runPipeline (fun _ => [[(1 : ℚ)]]) [5] ["yes"] "m" ["ab.pth.tar", "c-D-7.pth.tar"])) :=
  ⟨by simp, by decide, Or.inl (by decide),
   parse_error_aborts _ [5] ["yes"] "m" _ "ab.pth.tar" (by simp) (by decide) (Or.inl (by decide))⟩

lemma tallyAdd_cons_ne {p : String × Int} {a : String} (h : p.1 ≠ a)
    (rest : VoteTally) (w : Int) :
    tallyAdd (p :: rest) a w = p :: tallyAdd rest a w := by
  simp only [tallyAdd, List.any_cons, h, decide_False, Bool.false_or]
  by_cases hr : rest.any (fun q => q.1 = a)
  · simp [hr, h]
  · simp [hr, h]

lemma tallyAdd_sum {t : VoteTally} (hnd : (t.map Prod.fst).Nodup) (a : String) (w : Int) :
    tallySum (tallyAdd t a w) = tallySum t + w := by
  induction t with
  | nil => simp [tallyAdd, tallySum]
  | cons p rest ih =>
    simp only [List.map_cons, List.nodup_cons] at hnd
    obtain ⟨hpa, hrest⟩ := hnd
    by_cases hp : p.1 = a
    · have hany : (p :: rest).any (fun q => q.1 = a) = true := by simp [hp]
      have hrid : rest.map (fun q => if q.1 = a then (q.1, q.2 + w) else q) = rest := by
        have hcg : rest.map (fun q => if q.1 = a then (q.1, q.2 + w) else q) =
            rest.map id := by
          apply List.map_congr_left
          intro q hq
          have hqa : q.1 ≠ a := by
            intro he
            exact hpa (by rw [hp, ← he]; exact List.mem_map_of_mem Prod.fst hq)
          simp [hqa]
        rw [hcg, List.map_id]
      simp only [tallyAdd, hany, if_true, List.map_cons, hp, if_pos rfl, hrid]
      simp [tallySum]
      ring
    · rw [tallyAdd_cons_ne hp rest w]
      simp only [tallySum, List.map_cons, List.sum_cons] at *
      rw [ih hrest]
      ring

lemma tallyAdd_fst_of_any {t : VoteTally} {a : String}
    (h : t.any (fun p => p.1 = a) = true) (w : Int) :
    (tallyAdd t a w).map Prod.fst = t.map Prod.fst := by
  simp only [tallyAdd, h, if_true]
  rw [List.map_map]
  apply List.map_congr_left
  intro q _
  by_cases hq : q.1 = a <;> simp [hq]

lemma tallyAdd_fst_of_not_any {t : VoteTally} {a : String}
    (h : ¬ (t.any (fun p => p.1 = a) = true)) (w : Int) :
    (tallyAdd t a w).map Prod.fst = t.map Prod.fst ++ [a] := by
  simp only [tallyAdd, h, if_false]
  simp

lemma tallyAdd_keys {t : VoteTally} {a k : String} {w : Int}
    (hk : k ∈ (tallyAdd t a w).map Prod.fst) : k ∈ t.map Prod.fst ∨ k = a := by
  by_cases h : t.any (fun p => p.1 = a) = true
  · rw [tallyAdd_fst_of_any h] at hk
    exact Or.inl hk
  · rw [tallyAdd_fst_of_not_any h] at hk
    rcases List.mem_append.mp hk with h1 | h2
    · exact Or.inl h1
    · exact Or.inr (by simpa using h2)

lemma tallyAdd_nodup {t : VoteTally} (hnd : (t.map Prod.fst).Nodup) (a : String) (w : Int) :
    ((tallyAdd t a w).map Prod.fst).Nodup := by
  by_cases h : t.any (fun p => p.1 = a) = true
  · rw [tallyAdd_fst_of_any h]
    exact hnd
  · rw [tallyAdd_fst_of_not_any h]
    have hna : a ∉ t.map Prod.fst := by
      intro hmem
      apply h
      rw [List.any_eq_true]
      obtain ⟨p, hp, hpa⟩ := List.mem_map.mp hmem
      exact ⟨p, hp, by simp [hpa]⟩
    simp [List.nodup_append, hnd, hna]

lemma mem_zipWith {α β γ : Type} {f : α → β → γ} :
    ∀ {as : List α} {bs : List β} {x : γ}, x ∈ List.zipWith f as bs →
      ∃ a b, a ∈ as ∧ b ∈ bs ∧ x = f a b := by
  intro as
  induction as with
  | nil => intro bs x h; simp at h
  | cons a as ih =>
    intro bs x h
    cases bs with
    | nil => simp at h
    | cons b bs =>
      rw [List.zipWith_cons_cons] at h
      rcases List.mem_cons.mp h with h1 | h2
      · exact ⟨a, b, by simp, by simp, h1⟩
      · obtain ⟨a', b', ha, hb, hx⟩ := ih h2
        exact ⟨a', b', List.mem_cons_of_mem _ ha, List.mem_cons_of_mem _ hb, hx⟩

lemma argmaxIdx_lt_length {l : List ℚ} (h : l ≠ []) : argmaxIdx l < l.length := by
  cases hx : argmaxAux l with
  | none => exact absurd (argmaxAux_eq_none hx) h
  | some p =>
    obtain ⟨i, y⟩ := p
    have := (argmaxAux_spec hx).1
    simp [argmaxIdx, hx, this]

lemma topAns_mem {itoa : List String} {row : List ℚ} (hne : itoa ≠ [])
    (hlen : row.length = itoa.length) : topAns itoa row ∈ itoa := by
  have hrow : row ≠ [] := by
    intro h
    subst h
    exact hne (List.eq_nil_of_length_eq_zero hlen.symm)
  have hlt : argmaxIdx row < itoa.length := hlen ▸ argmaxIdx_lt_length hrow
  rw [topAns, List.getD_eq_getElem _ _ hlt]
  exact List.getElem_mem hlt

lemma accumVotes_inv (itoa : List String) (score : CheckpointEntry → List (List ℚ))
    (hne : itoa ≠ []) :
    ∀ (es : List CheckpointEntry) (votes : List VoteTally) (S : Int),
    (∀ e ∈ es, (score e).length = votes.length) →
    (∀ e ∈ es, ∀ row ∈ score e, row.length = itoa.length) →
    (∀ t ∈ votes, tallySum t = S ∧ (∀ k ∈ t.map Prod.fst, k ∈ itoa) ∧
      (t.map Prod.fst).Nodup) →
    (accumVotes itoa score es votes).length = votes.length ∧
    ∀ t ∈ accumVotes itoa score es votes, tallySum t = S + accSum es ∧
      (∀ k ∈ t.map Prod.fst, k ∈ itoa) ∧ (t.map Prod.fst).Nodup := by
  intro es
  induction es with
  | nil =>
    intro votes S _ _ hinv
    refine ⟨rfl, ?_⟩
    intro t ht
    obtain ⟨h1, h2, h3⟩ := hinv t ht
    exact ⟨by simp [accSum, h1], h2, h3⟩
  | cons e es ih =>
    intro votes S hlen hrow hinv
    have hstep : accumVotes itoa score (e :: es) votes =
        accumVotes itoa score es (accumVotesEntry itoa e.acc (score e) votes) := by
      simp [accumVotes]
    have hlen' : (accumVotesEntry itoa e.acc (score e) votes).length = votes.length := by
      simp only [accumVotesEntry, List.length_zipWith]
      rw [hlen e (by simp)]
      simp
    have hinv' : ∀ t ∈ accumVotesEntry itoa e.acc (score e) votes,
        tallySum t = S + e.acc ∧ (∀ k ∈ t.map Prod.fst, k ∈ itoa) ∧
          (t.map Prod.fst).Nodup := by
      intro t ht
      obtain ⟨row, t₀, hrowm, ht₀, hteq⟩ := mem_zipWith ht
      obtain ⟨h1, h2, h3⟩ := hinv t₀ ht₀
      have hansm : topAns itoa row ∈ itoa :=
        topAns_mem hne (hrow e (by simp) row hrowm)
      subst hteq
      refine ⟨?_, ?_, tallyAdd_nodup h3 _ _⟩
      · rw [voteStep, tallyAdd_sum h3, h1]
      · intro k hk
        rcases tallyAdd_keys hk with h | h
        · exact h2 k h
        · rw [h]; exact hansm
    rw [hstep]
    obtain ⟨hl, hrest⟩ := ih (accumVotesEntry itoa e.acc (score e) votes) (S + e.acc)
      (fun e' he' => by rw [hlen e' (List.mem_cons_of_mem _ he'), hlen'])
      (fun e' he' => hrow e' (List.mem_cons_of_mem _ he'))
      hinv'
    refine ⟨by rw [hl, hlen'], ?_⟩
    intro t ht
    obtain ⟨h1, h2, h3⟩ := hrest t ht
    refine ⟨?_, h2, h3⟩
    rw [h1]
    simp only [accSum, List.map_cons, List.sum_cons]
    ring

/-- C7: after processing any prefix of `k` catalog entries, the vote
buffer still has one tally per sample; every sample's tally received
exactly one weighted vote per processed entry, so its total weight is the
sum of the accuracies of those `k` entries; and every key of the tally is
an answer string of the vocabulary (keys stay distinct).  This requires
each model to emit one score vector per sample, each of vocabulary
length. -/
theorem vote_tally_invariant (itoa : List String)
    (score : CheckpointEntry → List (List ℚ)) (entries : List CheckpointEntry)
    (n k : Nat) (hne : itoa ≠ [])
    (hlen : ∀ e ∈ entries, (score e).length = n)
    (hrow : ∀ e ∈ entries, ∀ row ∈ score e, row.length = itoa.length) :
    (accumVotes itoa score (entries.take k) (List.replicate n [])).length = n ∧
    ∀ t ∈ accumVotes itoa score (entries.take k) (List.replicate n []),
      tallySum t = accSum (entries.take k) ∧
        (∀ key ∈ t.map Prod.fst, key ∈ itoa) ∧ (t.map Prod.fst).Nodup := by
  have h := accumVotes_inv itoa score hne (entries.take k) (List.replicate n []) 0
    (fun e he => by
      rw [hlen e (List.take_subset k entries he)]
      simp)
    (fun e he => hrow e (List.take_subset k entries he))
    (fun t ht => by
      have : t = [] := List.eq_of_mem_replicate ht
      subst this
      exact ⟨rfl, by simp, by simp⟩)
  obtain ⟨h1, h2⟩ := h
  refine ⟨by simpa using h1, ?_⟩
  intro t ht
  obtain ⟨hs, hk, hnd⟩ := h2 t ht
  exact ⟨by simpa using hs, hk, hnd⟩

theorem vote_tally_invariant_witness :
    ((["a", "b"] : List String) ≠ []) ∧
    ((accumVotes ["a", "b"] (fun _ => [[(1 : ℚ), 0], [0, 1]])
        ([⟨"g", "M", 9, "p"⟩, ⟨"h", "N", 4, "q"⟩].take 2) (List.replicate 2 [])).length = 2 ∧
      ∀ t ∈ accumVotes ["a", "b"] (fun _ => [[(1 : ℚ), 0], [0, 1]])
          ([⟨"g", "M", 9, "p"⟩, ⟨"h", "N", 4, "q"⟩].take 2) (List.replicate 2 []),
        tallySum t = accSum ([⟨"g", "M", 9, "p"⟩, ⟨"h", "N", 4, "q"⟩].take 2) ∧
          (∀ key ∈ t.map Prod.fst, key ∈ ["a", "b"]) ∧ (t.map Prod.fst).Nodup) :=
  ⟨by simp,
   vote_tally_invariant ["a", "b"] _ _ 2 2 (by simp)
     (fun e _ => rfl) (fun e _ row hrow => by fin_cases hrow <;> rfl)⟩

lemma tallyAdd_ne_nil (t : VoteTally) (a : String) (w : Int) : tallyAdd t a w ≠ [] := by
  by_cases h : t.any (fun p => p.1 = a) = true
  · cases t with
    | nil => simp at h
    | cons p rest => simp [tallyAdd, h]
  · simp only [tallyAdd, h, if_false]
    simp

lemma accumVotes_all_ne_nil (itoa : List String) (score : CheckpointEntry → List (List ℚ)) :
    ∀ (es : List CheckpointEntry) (votes : List VoteTally),
      (∀ t ∈ votes, t ≠ []) → ∀ t ∈ accumVotes itoa score es votes, t ≠ [] := by
  intro es
  induction es with
  | nil => intro votes h; exact h
  | cons e es ih =>
    intro votes h
    have hstep : accumVotes itoa score (e :: es) votes =
        accumVotes itoa score es (accumVotesEntry itoa e.acc (score e) votes) := by
      simp [accumVotes]
    rw [hstep]
    apply ih
    intro t ht
    obtain ⟨row, t₀, _, _, hteq⟩ := mem_zipWith ht
    rw [hteq]
    exact tallyAdd_ne_nil t₀ _ _

lemma accumVotes_ne_nil_of_entries (itoa : List String)
    (score : CheckpointEntry → List (List ℚ)) {es : List CheckpointEntry}
    (hes : es ≠ []) (votes : List VoteTally) :
    ∀ t ∈ accumVotes itoa score es votes, t ≠ [] := by
  cases es with
  | nil => exact absurd rfl hes
  | cons e es' =>
    have hstep : accumVotes itoa score (e :: es') votes =
        accumVotes itoa score es' (accumVotesEntry itoa e.acc (score e) votes) := by
      simp [accumVotes]
    rw [hstep]
    apply accumVotes_all_ne_nil
    intro t ht
    obtain ⟨row, t₀, _, _, hteq⟩ := mem_zipWith ht
    rw [hteq]
    exact tallyAdd_ne_nil t₀ _ _

lemma accumVotes_length (itoa : List String) (score : CheckpointEntry → List (List ℚ)) :
    ∀ (es : List CheckpointEntry) (votes : List VoteTally),
      (∀ e ∈ es, (score e).length = votes.length) →
      (accumVotes itoa score es votes).length = votes.length := by
  intro es
  induction es with
  | nil => intro votes _; rfl
  | cons e es ih =>
    intro votes hlen
    have hstep : accumVotes itoa score (e :: es) votes =
        accumVotes itoa score es (accumVotesEntry itoa e.acc (score e) votes) := by
      simp [accumVotes]
    have hlen' : (accumVotesEntry itoa e.acc (score e) votes).length = votes.length := by
      simp only [accumVotesEntry, List.length_zipWith]
      rw [hlen e (by simp)]
      simp
    rw [hstep, ih _ (fun e' he' => by rw [hlen e' (List.mem_cons_of_mem _ he'), hlen']), hlen']

lemma accumConf_length (score : CheckpointEntry → List (List ℚ)) :
    ∀ (es : List CheckpointEntry) (conf₀ : List (List ℚ)),
      (∀ e ∈ es, (score e).length = conf₀.length) →
      (accumConf score es conf₀).length = conf₀.length := by
  intro es
  induction es with
  | nil => intro conf₀ _; rfl
  | cons e es ih =>
    intro conf₀ hlen
    have hstep : accumConf score (e :: es) conf₀ =
        accumConf score es (matAdd conf₀ (score e)) := by
      simp [accumConf]
    have hlen' : (matAdd conf₀ (score e)).length = conf₀.length := by
      simp only [matAdd, List.length_zipWith]
      rw [hlen e (by simp)]
      simp
    rw [hstep, ih _ (fun e' he' => by rw [hlen e' (List.mem_cons_of_mem _ he'), hlen']), hlen']

lemma voteAnswers_ok_of_ne_nil :
    ∀ {votes : List VoteTally}, (∀ t ∈ votes, t ≠ []) →
      ∃ va, voteAnswers votes = .ok va ∧ va.length = votes.length := by
  intro votes
  induction votes with
  | nil => intro _; exact ⟨[], rfl, rfl⟩
  | cons t ts ih =>
    intro h
    cases hmc : mostCommon1 t with
    | none => exact absurd (mostCommon1_eq_none hmc) (h t (by simp))
    | some p =>
      obtain ⟨va, hva, hlen⟩ := ih (fun t' ht' => h t' (List.mem_cons_of_mem _ ht'))
      refine ⟨p.1 :: va, ?_, by simp [hlen]⟩
      simp only [voteAnswers, hmc, hva]

/-- C8: for every valid catalog with at least two entries (and a scoring
oracle emitting one vocabulary-length score vector per sample), the
pipeline succeeds and each output list has exactly one object per
evaluation sample; projecting `question_id` from either output yields the
sample-id list itself, in its original order (hence no duplicates and no
omissions whenever the sample ids are distinct). -/
theorem outputs_match_sample_index (score : CheckpointEntry → List (List ℚ))
    (queIds : List Int) (itoa : List String) (modelDir : String) (files : List String)
    (infos : List CheckpointEntry)
    (hbc : buildCatalog modelDir (files.filter (fun f => pyEndsWith f ".pth.tar")) =
      .ok infos)
    (hn : 2 ≤ infos.length) (hne : itoa ≠ [])
    (hlen : ∀ e ∈ sortCatalog infos, (score e).length = queIds.length)
    (hrow : ∀ e ∈ sortCatalog infos, ∀ row ∈ score e, row.length = itoa.length) :
    ∃ out, runPipeline score queIds itoa modelDir files = .ok out ∧
      out.conf.length = queIds.length ∧ out.vote.length = queIds.length ∧
      out.conf.map Prod.fst = queIds ∧ out.vote.map Prod.fst = queIds := by
  have hsl : (sortCatalog infos).length = infos.length := sortCatalog_length infos
  have hcat_ne : sortCatalog infos ≠ [] := by
    intro h
    rw [h] at hsl
    simp at hsl
    omega
  have hvlen : (accumVotes itoa score (sortCatalog infos)
      (List.replicate queIds.length [])).length = queIds.length := by
    rw [accumVotes_length itoa score _ _ (fun e he => by rw [hlen e he]; simp)]
    simp
  have hvne := accumVotes_ne_nil_of_entries itoa score hcat_ne
    (List.replicate queIds.length [])
  obtain ⟨va, hva, hvalen⟩ := voteAnswers_ok_of_ne_nil hvne
  have hclen : (accumConf score (sortCatalog infos)
      (List.replicate queIds.length (List.replicate itoa.length 0))).length =
        queIds.length := by
    rw [accumConf_length score _ _ (fun e he => by rw [hlen e he]; simp)]
    simp
  have hcalen : (confAnswers itoa (accumConf score (sortCatalog infos)
      (List.replicate queIds.length (List.replicate itoa.length 0)))).length =
        queIds.length := by
    rw [confAnswers, List.length_map, hclen]
  refine ⟨⟨queIds.zip (confAnswers itoa (accumConf score (sortCatalog infos)
      (List.replicate queIds.length (List.replicate itoa.length 0)))), queIds.zip va⟩,
    ?_, ?_, ?_, ?_, ?_⟩
  · unfold runPipeline
    simp only [hbc]
    rw [if_pos (show (sortCatalog infos).length > 1 by omega)]
    unfold finishRun
    rw [hva]
  · simp [List.length_zip, hcalen]
  · simp [List.length_zip, hvalen, hvlen]
  · exact List.map_fst_zip _ _ (by rw [hcalen])
  · exact List.map_fst_zip _ _ (by rw [hvalen, hvlen])

theorem outputs_match_sample_index_witness :
    (buildCatalog "m" (["a-A-80.pth.tar", "b-B-60.pth.tar"].filter
        (fun f => pyEndsWith f ".pth.tar")) = .ok [entryA, entryB]) ∧
    (2 ≤ ([entryA, entryB] : List CheckpointEntry).length) ∧
    ((["yes", "no", "two"] : List String) ≠ []) ∧
    (∃ out, runPipeline scoreC2 [1] ["yes", "no", "two"] "m"
        ["a-A-80.pth.tar", "b-B-60.pth.tar"] = .ok out ∧
      out.conf.length = [(1 : Int)].length ∧ out.vote.length = [(1 : Int)].length ∧
      out.conf.map Prod.fst = [(1 : Int)] ∧ out.vote.map Prod.fst = [(1 : Int)]) :=
  ⟨by decide, by decide, by simp,
   outputs_match_sample_index scoreC2 [1] ["yes", "no", "two"] "m"
     ["a-A-80.pth.tar", "b-B-60.pth.tar"] [entryA, entryB] (by decide) (by decide) (by simp)
     (fun e he => by
       have hs : sortCatalog [entryA, entryB] = [entryA, entryB] := by decide
       rw [hs] at he
       fin_cases he <;> rfl)
     (fun e he row hrow => by
       have hs : sortCatalog [entryA, entryB] = [entryA, entryB] := by decide
       rw [hs] at he
       fin_cases he <;> (simp only [scoreC2, entryA, entryB] at hrow ⊢) <;>
         simp at hrow <;> rw [hrow] <;> rfl)⟩

lemma fsGet_fsSet_self : ∀ (fs : FileSys) (p c : String), fsGet (fsSet fs p c) p = some c := by
  intro fs
  induction fs with
  | nil => intro p c; simp [fsSet, fsGet, List.find?]
  | cons q rest ih =>
    intro p c
    by_cases h : q.1 = p
    · simp [fsSet, h, fsGet, List.find?]
    · simp only [fsSet, h, if_false]
      simp only [fsGet, List.find?]
      rw [show (decide (q.1 = p)) = false by simp [h]]
      exact ih p c

lemma fsGet_fsSet_ne : ∀ (fs : FileSys) (p p' c : String), p ≠ p' →
    fsGet (fsSet fs p' c) p = fsGet fs p := by
  intro fs
  induction fs with
  | nil =>
    intro p p' c h
    simp [fsSet, fsGet, List.find?, Ne.symm h]
  | cons q rest ih =>
    intro p p' c h
    by_cases hq : q.1 = p'
    · simp only [fsSet, hq, if_true]
      simp only [fsGet, List.find?]
      rw [show (decide (p' = p)) = false by simp [Ne.symm h],
        show (decide (q.1 = p)) = false by simp [hq, Ne.symm h]]
    · simp only [fsSet, hq, if_false]
      simp only [fsGet, List.find?]
      cases hd : decide (q.1 = p) with
      | true => rfl
      | false => exact ih p p' c h

lemma string_append_right_cancel (s : String) : ∀ a b : String, s ++ a = s ++ b → a = b := by
  intro a b h
  have hd : s.data ++ a.data = s.data ++ b.data := congrArg String.data h
  have hab : a.data = b.data := List.append_cancel_left hd
  cases a
  cases b
  exact congrArg String.mk hab

/-- C9 counterexample: with the outputs written by `open(fname, 'w')`
followed by `json.dump` (lines 99-100), a crash right after the open —
after one filesystem operation — leaves an empty (truncated) file under
the final name `result-conf.json`, so it is not the case that every crash
point leaves the final name either absent or fully written. -/
theorem write_crash_truncated_counterexample :
    ¬ (∀ k, fsGet (runOps [] ((writeOutputs "m" "[0]" "[1]").take k))
          "m/result-conf.json" = none ∨
        fsGet (runOps [] ((writeOutputs "m" "[0]" "[1]").take k))
          "m/result-conf.json" = some "[0]") := by
  intro h
  have h1 := h 1
  revert h1
  decide

/-- C9 (amended): the output files are opened directly under their final
names in write mode (no temporary file, no rename): a completed run
leaves both result files with their full contents, but a crash between
the truncating open and the completed write leaves a partial (here:
empty) file under the final `result-conf.json` name. -/
theorem direct_write_truncation (modelDir confJson voteJson : String) (fs₀ : FileSys)
    (hconf : confJson ≠ "") :
    (fsGet (runOps fs₀ (writeOutputs modelDir confJson voteJson))
        (modelDir ++ "/result-conf.json") = some confJson ∧
      fsGet (runOps fs₀ (writeOutputs modelDir confJson voteJson))
        (modelDir ++ "/result-vote.json") = some voteJson) ∧
    (∃ k, k < (writeOutputs modelDir confJson voteJson).length ∧
      ∃ partialContent,
        fsGet (runOps fs₀ ((writeOutputs modelDir confJson voteJson).take k))
          (modelDir ++ "/result-conf.json") = some partialContent ∧
        partialContent ≠ confJson) := by
  have hne : modelDir ++ "/result-conf.json" ≠ modelDir ++ "/result-vote.json" := by
    intro h
    have := string_append_right_cancel modelDir _ _ h
    exact absurd this (by decide)
  constructor
  · constructor
    · simp only [writeOutputs, runOps, List.foldl_cons, List.foldl_nil, applyOp]
      rw [fsGet_fsSet_ne _ _ _ _ hne, fsGet_fsSet_ne _ _ _ _ hne, fsGet_fsSet_self]
    · simp only [writeOutputs, runOps, List.foldl_cons, List.foldl_nil, applyOp]
      rw [fsGet_fsSet_self]
  · refine ⟨1, by simp [writeOutputs], "", ?_, Ne.symm hconf⟩
    simp only [writeOutputs, List.take, runOps, List.foldl_cons, List.foldl_nil, applyOp]
    rw [fsGet_fsSet_self]

theorem direct_write_truncation_witness :
    (("[0]" : String) ≠ "") ∧
    ((fsGet (runOps [] (writeOutputs "m" "[0]" "[1]")) ("m" ++ "/result-conf.json") =
        some "[0]" ∧
      fsGet (runOps [] (writeOutputs "m" "[0]" "[1]")) ("m" ++ "/result-vote.json") =
        some "[1]") ∧
    (∃ k, k < (writeOutputs "m" "[0]" "[1]").length ∧
      ∃ partialContent,
        fsGet (runOps [] ((writeOutputs "m" "[0]" "[1]").take k))
          ("m" ++ "/result-conf.json") = some partialContent ∧
        partialContent ≠ "[0]")) :=
  ⟨by decide, direct_write_truncation "m" "[0]" "[1]" [] (by decide)⟩

end Ensemble
